import Mathlib

/-!
Shallow embedding of the ingestion-and-reconciliation core of the
NOSTR_HA_Bridge repository (src/relay_manager.py, src/mealplanner.py,
src/event_router.py, src/nip44_crypto.py), together with theorems that
settle the frozen claims about it.

Modelling conventions:
* Python `dict` values are insertion-ordered association lists with the
  operations `dget` / `dset` / `ddel` below, matching CPython semantics
  (lookup is by key, assignment to an existing key keeps its position,
  a new key is appended at the end, `del` removes the key).
* ISO `YYYY-MM-DD` date strings are represented by their day numbers as
  integers; `datetime.date` comparison and `timedelta(days=n)` addition
  are order-isomorphic to integer comparison and addition, and the code
  only ever compares and offsets dates.
* Python strings are Lean `String`s.  Operations that the Lean kernel
  cannot reduce (`String.splitOn`, `String.replace`, `<` on `String`)
  are re-implemented over the underlying `List Char`, which evaluates.
* `nip44_decrypt` (an external FFI primitive) is an opaque parameter
  `prim : String → Option String`; `none` models a raised exception.
* The asyncio runtime is single threaded and none of the modelled
  functions suspends between a read and the write that depends on it,
  so state is threaded sequentially.
-/

namespace Bridge

/-- Lookup in an insertion-ordered association list: Python `d.get(k)` /
`d[k]`.  Returns the first (in a real dict: only) binding of the key. -/
def dget {κ ν : Type} [DecidableEq κ] (k : κ) : List (κ × ν) → Option ν
  | [] => none
  | (k₂, v) :: rest => if k = k₂ then some v else dget k rest

/-- Store a value under a key: Python `d[k] = v`.  An existing key keeps
its position in the insertion order; a new key is appended at the end. -/
def dset {κ ν : Type} [DecidableEq κ] (k : κ) (v : ν) : List (κ × ν) → List (κ × ν)
  | [] => [(k, v)]
  | (k₂, v₂) :: rest => if k = k₂ then (k, v) :: rest else (k₂, v₂) :: dset k v rest

/-- Remove a key: Python `del d[k]` (keys are unique in a Python dict,
so removing the first binding is removing the binding). -/
def ddel {κ ν : Type} [DecidableEq κ] (k : κ) : List (κ × ν) → List (κ × ν)
  | [] => []
  | (k₂, v₂) :: rest => if k = k₂ then rest else (k₂, v₂) :: ddel k rest

/-- Lexicographic code-point comparison of character lists.  This is the
semantics of Python `str.__lt__` (and of Lean `String` order) restated
in a form the kernel can evaluate. -/
def strLtChars : List Char → List Char → Bool
  | _, [] => false
  | [], _ :: _ => true
  | a :: as, b :: bs => if a < b then true else if b < a then false else strLtChars as bs

/-- Python `a < b` on strings. -/
def pyStrLt (a b : String) : Bool := strLtChars a.data b.data

/-! ## Relay manager (src/relay_manager.py)

`NostrEventHandler.handle` is the push path, `RelayManager.fetch_latest`
the poll path; both share one `OrderedDict` seen-set, modelled as the
`List` of its keys in insertion order, and one callback, whose
invocations are modelled as an append-only log. -/

/-- Hard cap of the seen-set: `RelayManager._max_seen = 10_000`. -/
def maxSeen : Nat := 10000

/-- One NOSTR event as the handlers consume it: identifier
(`event.id().to_hex()`), author (`event.author().to_hex()`) and
encrypted content (`event.content()`).  The identifier type is a
parameter so concrete instances in theorems can pick a convenient one. -/
structure NEvent (ι : Type) where
  id : ι
  author : String
  content : String
deriving DecidableEq, Repr

/-- Mutable state shared by the two delivery paths: the seen-set keys in
insertion order, and the log of callback invocations (event identifier,
decrypted plaintext) made so far. -/
structure GwState (ι : Type) where
  seen : List ι
  forwarded : List (ι × String)
deriving DecidableEq, Repr

/-- `NostrEventHandler.handle`: dedup check against the seen-set, mark,
author check against the configured publisher, decrypt, forward to the
callback.  `prim` models `nip44_decrypt` for the configured key pair
(`none` = the call raises, which the handler swallows). -/
def handlePush {ι : Type} [DecidableEq ι] (pub : String) (prim : String → Option String)
    (ev : NEvent ι) (s : GwState ι) : GwState ι :=
  if ev.id ∈ s.seen then s
  else
    let s₁ : GwState ι := { s with seen := s.seen ++ [ev.id] }
    if ev.author ≠ pub then s₁
    else
      match prim ev.content with
      | none => s₁
      | some pt => { s₁ with forwarded := s₁.forwarded ++ [(ev.id, pt)] }

/-- Body of the per-event loop in `RelayManager.fetch_latest`: dedup
check, mark, decrypt, forward.  (The author restriction of the poll path
lives in the relay-side fetch filter, not in this loop.) -/
def pollStep {ι : Type} [DecidableEq ι] (prim : String → Option String)
    (s : GwState ι) (ev : NEvent ι) : GwState ι :=
  if ev.id ∈ s.seen then s
  else
    let s₁ : GwState ι := { s with seen := s.seen ++ [ev.id] }
    match prim ev.content with
    | none => s₁
    | some pt => { s₁ with forwarded := s₁.forwarded ++ [(ev.id, pt)] }

/-- `RelayManager._prune_seen`: when the seen-set holds more than
`_max_seen` entries, pop `len - _max_seen // 2` entries from the front
(FIFO, `popitem(last=False)`); otherwise do nothing. -/
def pruneSeen {ι : Type} (l : List ι) : List ι :=
  if maxSeen < l.length then l.drop (l.length - maxSeen / 2) else l

/-- `RelayManager.fetch_latest`, applied to the batch of events the
relays returned: run the per-event loop over the batch in order, then
prune the seen-set. -/
def fetchLatest {ι : Type} [DecidableEq ι] (prim : String → Option String)
    (evs : List (NEvent ι)) (s : GwState ι) : GwState ι :=
  let s₁ := evs.foldl (pollStep prim) s
  { s₁ with seen := pruneSeen s₁.seen }

/-! ## Meal planner (src/mealplanner.py) -/

/-- Retention window width: `_CACHE_FUTURE_DAYS = 30`. -/
def cacheFutureDays : Int := 30

/-- The fields of a meal-plan event payload that the handler reads.
`deleted` is the truthiness of `data.get("_deleted")`; `date` is
`data.get("date")` as a day number (`none` = field missing); `updatedAt`
is `data.get("updatedAt", "")` (so `""` = field missing); `planId` is
`data.get("id")` (`""` = missing); `mealTitle` is
`data.get("meal_data", {}).get("title")`. -/
structure PlanData where
  deleted : Bool
  date : Option Int
  updatedAt : String
  planId : String
  mealTitle : Option String
deriving DecidableEq, Repr

/-- One `set_state` call made for the todays-meal sensor.  Only the
entity id and the state string are modelled; the attribute dictionary
built alongside them is not referenced by any claim about this module. -/
structure MealUpdate where
  entityId : String
  state : String
deriving DecidableEq, Repr

/-- State of `MealPlannerHandler`: the plan cache `_plans` (date key →
payload, insertion ordered), `_last_today` (`none` models the initial
`""`), and the log of `set_state` calls issued so far. -/
structure MealState where
  plans : List (Int × PlanData)
  lastToday : Option Int
  emitted : List MealUpdate
deriving DecidableEq, Repr

/-- `MealPlannerHandler._is_today_or_future`: the date parses and lies
in `[today, today + 30]`.  (Malformed date strings, which make the
Python `except` branch return `False`, are outside the day-number
embedding; no claim involves one.) -/
def isTodayOrFuture (today k : Int) : Bool :=
  decide (today ≤ k ∧ k ≤ today + cacheFutureDays)

/-- `MealPlannerHandler._prune_old_plans`: drop every cached key that
`_is_today_or_future` rejects, keeping the order of the rest. -/
def pruneOldPlans (today : Int) (m : List (Int × PlanData)) : List (Int × PlanData) :=
  m.filter (fun kp => isTodayOrFuture today kp.1)

/-- Title shown for a cached plan: `meal_data.get("title", "Unknown Meal")`
as read by `_update_todays_meal`. -/
def planTitle (p : PlanData) : String := p.mealTitle.getD "Unknown Meal"

/-- Entity id of the todays-meal sensor: `sensor.{prefix}_todays_meal`. -/
def mealEntity (pfx : String) : String := "sensor." ++ pfx ++ "_todays_meal"

/-- `MealPlannerHandler._update_todays_meal`: record today as the last
observed date, look up the plan cached under today, and issue exactly
one `set_state` — the plan title when a plan exists, the literal
`"No meal planned"` otherwise. -/
def updateTodaysMeal (pfx : String) (today : Int) (st : MealState) : MealState :=
  let st₁ : MealState := { st with lastToday := some today }
  match dget today st₁.plans with
  | some p => { st₁ with emitted := st₁.emitted ++ [⟨mealEntity pfx, planTitle p⟩] }
  | none => { st₁ with emitted := st₁.emitted ++ [⟨mealEntity pfx, "No meal planned"⟩] }

/-- Python `d_tag.split(":")[-1]` computed over the character list: the
segment after the last colon (the whole string when no colon occurs). -/
def lastSeg (s : String) : String :=
  String.mk (s.data.foldl (fun acc c => if c = ':' then [] else acc ++ [c]) [])

/-- `MealPlannerHandler._find_date_by_dtag`: extract the plan id from
the d-tag (last colon-separated segment; `None` when the tag has no
colon or the segment is empty) and return the first cached date whose
payload carries that id. -/
def findDateByDtag (dtag : String) (m : List (Int × PlanData)) : Option Int :=
  if dtag.data.contains ':' = false then none
  else if lastSeg dtag = "" then none
  else (m.find? (fun kp => kp.2.planId == lastSeg dtag)).map Prod.fst

/-- Stale-write test of `handle_plan_event`: Python
`incoming_ts and existing_ts and incoming_ts < existing_ts` against the
existing record, `False` when no record exists for the key. -/
def staleCheck (existing : Option PlanData) (incoming : PlanData) : Bool :=
  match existing with
  | none => false
  | some ex => incoming.updatedAt != "" && ex.updatedAt != "" && pyStrLt incoming.updatedAt ex.updatedAt

/-- `MealPlannerHandler.handle_plan_event`: deletion marker → find the
cached date by d-tag, remove it and re-derive; otherwise require a date
key, drop keys outside the retention window, drop stale writes, and
else store the record, prune the cache and re-derive.  (The Python
deletion branch re-checks `plan_date in self._plans`, which is
vacuously true for a date found by iterating `self._plans`.) -/
def handlePlan (pfx : String) (today : Int) (data : PlanData) (dtag : String)
    (st : MealState) : MealState :=
  if data.deleted then
    match findDateByDtag dtag st.plans with
    | some pd => updateTodaysMeal pfx today { st with plans := ddel pd st.plans }
    | none => st
  else
    match data.date with
    | none => st
    | some pd =>
      if isTodayOrFuture today pd then
        if staleCheck (dget pd st.plans) data then st
        else
          updateTodaysMeal pfx today
            { st with plans := pruneOldPlans today (dset pd data st.plans) }
      else st

/-- `MealPlannerHandler.refresh_today`: compare today against the last
observed date; on a change re-derive (which also records the new date)
and report `true`, otherwise report `false` and leave the state alone. -/
def refreshToday (pfx : String) (today : Int) (st : MealState) : MealState × Bool :=
  if some today ≠ st.lastToday then (updateTodaysMeal pfx today st, true)
  else (st, false)

/-! ## Event router (src/event_router.py), sensor dispatch -/

/-- Python value of a sensor reading (`value: float | int | str`).
Integers and strings are embedded directly; a float is carried by its
`str()` rendering, since binary floating point is outside the
embedding and only the rendering is ever used. -/
inductive PyValue where
  | pyInt (n : Int)
  | pyStr (s : String)
  | pyFloat (lit : String)
deriving DecidableEq, Repr

/-- Python `str(value)` for a sensor value. -/
def pyStrOf : PyValue → String
  | .pyInt n => toString n
  | .pyStr s => s
  | .pyFloat lit => lit

/-- Core of Python `str.title()` for the ASCII strings produced from
validated entity ids (`[a-z0-9_]{1,64}` with underscores replaced by
spaces): a letter is uppercased when the preceding character is not a
letter, lowercased otherwise.  The flag records whether the previous
character was a letter. -/
def titleChars : Bool → List Char → List Char
  | _, [] => []
  | prevAlpha, c :: rest =>
    if c.isAlpha then
      (if prevAlpha then c.toLower else c.toUpper) :: titleChars true rest
    else
      c :: titleChars false rest

/-- Python `s.title()` (ASCII fragment, see `titleChars`). -/
def pyTitle (s : String) : String := String.mk (titleChars false s.data)

/-- The `friendly_name` derivation in `EventRouter._dispatch`:
`payload.entity_id.replace("_", " ").title()`.  Replacing the
single-character pattern `"_"` is a character map. -/
def friendlyName (eid : String) : String :=
  pyTitle (String.mk (eid.data.map (fun c => if c = '_' then ' ' else c)))

/-- A validated `SensorPayload` as `_dispatch` consumes it.  The
`attributes` dict holds arbitrary caller-supplied values. -/
structure SensorPayload where
  entityId : String
  value : PyValue
  unit : String
  deviceClass : String
  attributes : List (String × PyValue)
deriving DecidableEq, Repr

/-- One `set_state` call issued to the Home Assistant client, with its
full attribute dictionary. -/
structure SinkUpdate where
  entityId : String
  state : String
  attrs : List (String × PyValue)
deriving DecidableEq, Repr

/-- `EventRouter._dispatch`, `SensorPayload` case: the list of
`set_state` calls it issues (exactly one).  The attribute dict literal
`{**payload.attributes, ...}` spreads the caller attributes first and
then assigns the four fixed keys in source order, so the fixed values
overwrite any caller-supplied binding of the same name. -/
def dispatchSensor (pfx : String) (p : SensorPayload) : List SinkUpdate :=
  let attrs :=
    dset "source" (.pyStr "nostr")
      (dset "friendly_name" (.pyStr (friendlyName p.entityId))
        (dset "device_class" (.pyStr p.deviceClass)
          (dset "unit_of_measurement" (.pyStr p.unit) p.attributes)))
  [{ entityId := "sensor." ++ pfx ++ "_" ++ p.entityId
     state := pyStrOf p.value
     attrs := attrs }]

/-! ## NIP-44 decryption wrapper (src/nip44_crypto.py)

`Nip44Crypto.decrypt` takes the encrypted content string; when it starts
with the literal text `'\x7b"_chunks":'` of a compact chunk envelope it
attempts `json.loads` on the whole string, reads `wrapper["_chunks"]`
and decrypts each chunk, concatenating the plaintexts; a
`JSONDecodeError` or `KeyError` falls back to single-shot decryption,
while any other exception (a `TypeError` from subscripting or iterating
an unsuitable value, or a decryption failure inside the comprehension)
escapes `decrypt`.  The model below embeds `json.loads` itself — the
complete JSON value grammar: strings with the full escape set including
`\uXXXX` and surrogate pairs, numbers, `true`/`false`/`null`, the
Python-specific `NaN`/`Infinity`/`-Infinity` extensions, nested arrays
and objects, duplicate object keys (last value wins, as in CPython) —
and then the exact branch structure of the chunked path.  Two genuine
embedding boundaries remain, both documented at the definition they
affect: a `\u` escape denoting a lone UTF-16 surrogate produces a
Python string that a Lean `String` cannot represent, and CPython's
parser recursion limit on absurdly nested documents is not modelled.
The claim theorem quantifies only over regions the model covers
faithfully. -/

/-- Whitespace test for the four JSON whitespace characters. -/
def wsChar (c : Char) : Bool :=
  c = ' ' || c = '\t' || c = '\n' || c = '\r'

/-- Discard leading JSON whitespace. -/
def dropSpaces (cs : List Char) : List Char := cs.dropWhile wsChar

/-- Decoding of the single-character JSON escapes. -/
def escMap (c : Char) : Option Char :=
  if c = '"' ∨ c = '\\' ∨ c = '/' then some c
  else if c = 'n' then some '\n'
  else if c = 't' then some '\t'
  else if c = 'r' then some '\r'
  else if c = 'b' then some (Char.ofNat 8)
  else if c = 'f' then some (Char.ofNat 12)
  else none

/-- Value of one hexadecimal digit. -/
def hexDigit (c : Char) : Option Nat :=
  if '0' ≤ c ∧ c ≤ '9' then some (c.toNat - '0'.toNat)
  else if 'a' ≤ c ∧ c ≤ 'f' then some (c.toNat - 'a'.toNat + 10)
  else if 'A' ≤ c ∧ c ≤ 'F' then some (c.toNat - 'A'.toNat + 10)
  else none

/-- Decode the remainder of a JSON string literal, the opening quote
already consumed; yields the decoded characters together with whatever
follows the closing quote.  Raw control characters are rejected, as in
`json.loads` strict mode; `\uXXXX` escapes are decoded, with a
high-surrogate escape combined with an immediately following
low-surrogate escape as in CPython.  Embedding boundary: a `\u` escape
denoting a lone surrogate is accepted by Python but yields a string no
Lean `String` can hold, so the model treats the document as unparsable
there; no claim depends on such a body. -/
def strBody : List Char → Option (List Char × List Char)
  | [] => none
  | c :: rest =>
    if c = '"' then some ([], rest)
    else if c = '\\' then
      match rest with
      | [] => none
      | e :: rest₂ =>
        if e = 'u' then
          match rest₂ with
          | h₁ :: h₂ :: h₃ :: h₄ :: rest₃ =>
            match hexDigit h₁, hexDigit h₂, hexDigit h₃, hexDigit h₄ with
            | some a, some b, some c₂, some d =>
              let n := ((a * 16 + b) * 16 + c₂) * 16 + d
              if 0xD800 ≤ n ∧ n ≤ 0xDBFF then
                match rest₃ with
                | '\\' :: 'u' :: g₁ :: g₂ :: g₃ :: g₄ :: rest₄ =>
                  match hexDigit g₁, hexDigit g₂, hexDigit g₃, hexDigit g₄ with
                  | some a₂, some b₂, some c₃, some d₂ =>
                    let m := ((a₂ * 16 + b₂) * 16 + c₃) * 16 + d₂
                    if 0xDC00 ≤ m ∧ m ≤ 0xDFFF then
                      match strBody rest₄ with
                      | some (s, r) =>
                        some (Char.ofNat (0x10000 + (n - 0xD800) * 0x400 + (m - 0xDC00)) :: s, r)
                      | none => none
                    else none
                  | _, _, _, _ => none
                | _ => none
              else if 0xDC00 ≤ n ∧ n ≤ 0xDFFF then none
              else
                match strBody rest₃ with
                | some (s, r) => some (Char.ofNat n :: s, r)
                | none => none
            | _, _, _, _ => none
          | _ => none
        else
          match escMap e, strBody rest₂ with
          | some d, some (s, r) => some (d :: s, r)
          | _, _ => none
    else if c.toNat < 0x20 then none
    else
      match strBody rest with
      | some (s, r) => some (c :: s, r)
      | none => none

/-- Count leading decimal digits and return the remainder. -/
def spanDigits : List Char → Nat × List Char
  | c :: rest =>
    if '0' ≤ c ∧ c ≤ '9' then
      let (n, r) := spanDigits rest
      (n + 1, r)
    else (0, c :: rest)
  | [] => (0, [])

/-- Consume an optional JSON fraction part (a dot must be followed by at
least one digit). -/
def fracPart : List Char → Option (List Char)
  | '.' :: r =>
    match spanDigits r with
    | (0, _) => none
    | (_ + 1, r₂) => some r₂
  | cs => some cs

/-- Consume an optional JSON exponent part (an `e`/`E` needs at least
one digit after the optional sign). -/
def expPart : List Char → Option (List Char)
  | e :: r =>
    if e = 'e' ∨ e = 'E' then
      let r₂ :=
        match r with
        | s :: r₃ => if s = '+' ∨ s = '-' then r₃ else s :: r₃
        | [] => []
      match spanDigits r₂ with
      | (0, _) => none
      | (_ + 1, r₃) => some r₃
    else some (e :: r)
  | [] => some []

/-- Consume a JSON number after the optional minus sign: the integer
part is `0` or a nonzero digit followed by digits (so `01` stops after
the `0`, failing later at the structural level, exactly as in Python),
then optional fraction and exponent. -/
def numRest (cs : List Char) : Option (List Char) :=
  match cs with
  | '0' :: r =>
    match fracPart r with
    | none => none
    | some r₂ => expPart r₂
  | c :: r =>
    if '1' ≤ c ∧ c ≤ '9' then
      let (_, r₁) := spanDigits r
      match fracPart r₁ with
      | none => none
      | some r₂ => expPart r₂
    else none
  | [] => none

/-- Require a literal continuation (the tail of a keyword) and return
what follows it. -/
def afterLit (lit cs : List Char) : Option (List Char) :=
  if lit.isPrefixOf cs then some (cs.drop lit.length) else none

/-- Parsed JSON value.  Numeric literals carry no payload: the chunked
branch of `decrypt` never reads a numeric value, it only raises on one,
so the number's value is irrelevant to every modelled behavior. -/
inductive JVal where
  | jstr (s : String)
  | jnum
  | jbool (b : Bool)
  | jnull
  | jarr (xs : List JVal)
  | jobj (ms : List (String × JVal))

mutual

/-- Parse one JSON value after optional whitespace: string, array,
object, `true`/`false`/`null`, the CPython extensions
`NaN`/`Infinity`/`-Infinity`, or a number.  The fuel argument bounds the
recursion; `parseDoc` supplies enough for any input of its length. -/
def parseVal : Nat → List Char → Option (JVal × List Char)
  | 0, _ => none
  | fuel + 1, cs =>
    match dropSpaces cs with
    | [] => none
    | c :: r =>
      if c = '"' then
        match strBody r with
        | some (s, r₂) => some (.jstr (String.mk s), r₂)
        | none => none
      else if c = '[' then
        match dropSpaces r with
        | ']' :: r₂ => some (.jarr [], r₂)
        | _ =>
          match parseItems fuel r with
          | some (xs, r₂) => some (.jarr xs, r₂)
          | none => none
      else if c = '\x7b' then
        match dropSpaces r with
        | '\x7d' :: r₂ => some (.jobj [], r₂)
        | _ =>
          match parseMembers fuel r with
          | some (ms, r₂) => some (.jobj ms, r₂)
          | none => none
      else if c = 't' then
        match afterLit "rue".data r with
        | some r₂ => some (.jbool true, r₂)
        | none => none
      else if c = 'f' then
        match afterLit "alse".data r with
        | some r₂ => some (.jbool false, r₂)
        | none => none
      else if c = 'n' then
        match afterLit "ull".data r with
        | some r₂ => some (.jnull, r₂)
        | none => none
      else if c = 'N' then
        match afterLit "aN".data r with
        | some r₂ => some (.jnum, r₂)
        | none => none
      else if c = 'I' then
        match afterLit "nfinity".data r with
        | some r₂ => some (.jnum, r₂)
        | none => none
      else if c = '-' then
        match r with
        | 'I' :: r₁ =>
          match afterLit "nfinity".data r₁ with
          | some r₂ => some (.jnum, r₂)
          | none => none
        | _ =>
          match numRest r with
          | some r₂ => some (.jnum, r₂)
          | none => none
      else
        match numRest (c :: r) with
        | some r₂ => some (.jnum, r₂)
        | none => none

/-- Parse the members of a nonempty JSON array up to and including the
closing bracket. -/
def parseItems : Nat → List Char → Option (List JVal × List Char)
  | 0, _ => none
  | fuel + 1, cs =>
    match parseVal fuel cs with
    | none => none
    | some (v, r) =>
      match dropSpaces r with
      | ',' :: r₂ =>
        match parseItems fuel r₂ with
        | some (xs, r₃) => some (v :: xs, r₃)
        | none => none
      | ']' :: r₂ => some ([v], r₂)
      | _ => none

/-- Parse the members of a nonempty JSON object up to and including the
closing brace.  Duplicate keys are kept; lookup resolves them to the
last value, as CPython's dict building does. -/
def parseMembers : Nat → List Char → Option (List (String × JVal) × List Char)
  | 0, _ => none
  | fuel + 1, cs =>
    match dropSpaces cs with
    | '"' :: r =>
      match strBody r with
      | none => none
      | some (key, r₂) =>
        match dropSpaces r₂ with
        | ':' :: r₃ =>
          match parseVal fuel r₃ with
          | none => none
          | some (v, r₄) =>
            match dropSpaces r₄ with
            | ',' :: r₅ =>
              match parseMembers fuel r₅ with
              | some (ms, r₆) => some ((String.mk key, v) :: ms, r₆)
              | none => none
            | '\x7d' :: r₅ => some ([(String.mk key, v)], r₅)
            | _ => none
        | _ => none
    | _ => none

end

/-- `json.loads` on a whole document: one value with only whitespace
around it.  The fuel `2·length + 4` over-approximates the worst-case
recursion (at most two fuel units are spent per consumed character).
Embedding boundary: CPython aborts on documents nested beyond its
recursion limit, which the model does not reproduce. -/
def parseDoc (s : String) : Option JVal :=
  match parseVal (2 * s.data.length + 4) s.data with
  | some (v, r) => if dropSpaces r = [] then some v else none
  | none => none

/-- Python dict lookup over parsed object members: with duplicate keys
the last value wins, as in a dict built by repeated assignment. -/
def lookupLast (k : String) : List (String × JVal) → Option JVal
  | [] => none
  | (k₂, v) :: rest =>
    match lookupLast k rest with
    | some v₂ => some v₂
    | none => if k = k₂ then some v else none

/-- Extract the strings of an array value; `none` when some element is
not a string (that element would reach `nip44_decrypt` and raise). -/
def allStrings : List JVal → Option (List String)
  | [] => some []
  | .jstr s :: rest =>
    match allStrings rest with
    | some ss => some (s :: ss)
    | none => none
  | _ :: _ => none

/-- Keys in first-occurrence order, skipping those already emitted (the
accumulator holds the keys seen so far). -/
def dedupKeysAux : List String → List String → List String
  | _, [] => []
  | seen, k :: rest =>
    if k ∈ seen then dedupKeysAux seen rest
    else k :: dedupKeysAux (k :: seen) rest

/-- Keys in first-occurrence order, each once: the iteration order of a
dict whose duplicate keys were collapsed by repeated assignment. -/
def dedupKeys (ks : List String) : List String := dedupKeysAux [] ks

/-- Outcome of the chunked branch after a successful `json.loads`: the
list of strings the comprehension will decrypt, a `KeyError` that falls
through to single-shot decryption, or an uncaught `TypeError` that
escapes `decrypt`. -/
inductive ChunksOutcome where
  | chunks (cs : List String)
  | keyErr
  | typeErr

/-- `wrapper["_chunks"]` followed by `for chunk in chunks`: subscripting
a non-dict raises `TypeError` (uncaught); a dict without the key raises
`KeyError` (caught, fall through); an array value feeds its elements to
the comprehension (a non-string element raises inside `nip44_decrypt`);
a string value iterates its characters as one-character strings; a dict
value iterates its keys; numbers, booleans and `null` are not iterable
and raise. -/
def chunksSource (w : JVal) : ChunksOutcome :=
  match w with
  | .jobj ms =>
    match lookupLast "_chunks" ms with
    | none => .keyErr
    | some v =>
      match v with
      | .jarr xs =>
        match allStrings xs with
        | some cs => .chunks cs
        | none => .typeErr
      | .jstr s => .chunks (s.data.map (fun ch => String.mk [ch]))
      | .jobj ms₂ => .chunks (dedupKeys (ms₂.map Prod.fst))
      | _ => .typeErr
  | _ => .typeErr

/-- The literal prefix the code tests with
`encrypted_content.startswith('...')`: the characters of the compact
chunk-envelope opening (brace, quoted `_chunks` key, colon). -/
def chunksMarker : List Char := ['\x7b', '"', '_', 'c', 'h', 'u', 'n', 'k', 's', '"', ':']

/-- The list comprehension over the chunks: decrypt every chunk in
order, propagating a failure of the primitive (the comprehension is
outside the `try`, so a raised decryption error escapes `decrypt`). -/
def decryptChunks (prim : String → Option String) : List String → Option (List String)
  | [] => some []
  | c :: rest =>
    match prim c with
    | none => none
    | some p =>
      match decryptChunks prim rest with
      | none => none
      | some ps => some (p :: ps)

/-- `Nip44Crypto.decrypt` over the opaque primitive `prim`
(= `nip44_decrypt` with the configured keys; `none` = raises): when the
content starts with the literal chunk-envelope prefix, run `json.loads`
on it — a parse failure falls back to single-shot decryption, a missing
"_chunks" key likewise, an unsubscriptable or uniterable value escapes
as an exception (`none`), and otherwise every chunk is decrypted and the
plaintexts concatenated (a chunk failure propagates); without the
prefix, decrypt the whole content in one shot. -/
def decrypt (prim : String → Option String) (content : String) : Option String :=
  if chunksMarker.isPrefixOf content.data then
    match parseDoc content with
    | none => prim content
    | some w =>
      match chunksSource w with
      | .keyErr => prim content
      | .typeErr => none
      | .chunks cs =>
        match decryptChunks prim cs with
        | some parts => some (String.join parts)
        | none => none
  else prim content

/-- Reading of a parsed document as a chunk envelope in the sense of
the specification: a JSON object whose "_chunks" member is an array of
strings; yields the chunk list. -/
def envChunks (w : JVal) : Option (List String) :=
  match w with
  | .jobj ms =>
    match lookupLast "_chunks" ms with
    | some (.jarr xs) => allStrings xs
    | _ => none
  | _ => none

/-- Reading of a body as a chunk envelope in the sense of the
specification: it parses as JSON and the document is a chunk envelope. -/
def chunkEnvelope (content : String) : Option (List String) :=
  match parseDoc content with
  | some w => envChunks w
  | none => none

/-- Modelled from the spec: the chunk convention as the specification
states it — chunked handling is selected for every body that *is a JSON
object of the shape* with a "_chunks" array, independent of the literal
textual form of the body.  Present only for comparison with `decrypt`;
the repository code is `decrypt` above. -/
def decryptPerSpec (prim : String → Option String) (content : String) : Option String :=
  match chunkEnvelope content with
  | some cs =>
    match decryptChunks prim cs with
    | some parts => some (String.join parts)
    | none => none
  | none => prim content

/-!
Helper lemmas about the dictionary model, the character-list string
order, the gateway state and the meal-planner state, shared by the claim
theorems below.
-/


theorem dget_dset_self {κ ν : Type} [DecidableEq κ] (k : κ) (v : ν) (m : List (κ × ν)) :
    dget k (dset k v m) = some v := by
  induction m with
  | nil => simp [dset, dget]
  | cons hd tl ih =>
    obtain ⟨k₂, v₂⟩ := hd
    by_cases h : k = k₂
    · simp [dset, dget, h]
    · simp [dset, dget, h, ih]

theorem dget_dset_ne {κ ν : Type} [DecidableEq κ] {k k₂ : κ} (v : ν) (m : List (κ × ν))
    (h : k ≠ k₂) : dget k (dset k₂ v m) = dget k m := by
  induction m with
  | nil => simp [dset, dget, h]
  | cons hd tl ih =>
    obtain ⟨k₃, v₃⟩ := hd
    by_cases h₂ : k₂ = k₃
    · subst h₂
      simp [dset, dget, h, ih]
    · by_cases h₃ : k = k₃ <;> simp [dset, dget, h₂, h₃, ih]

theorem dget_filterKeys {κ ν : Type} [DecidableEq κ] (k : κ) (f : κ → Bool) (m : List (κ × ν)) :
    dget k (m.filter (fun kp => f kp.1)) = if f k then dget k m else none := by
  induction m with
  | nil => simp [dget]
  | cons hd tl ih =>
    obtain ⟨k₂, v₂⟩ := hd
    by_cases hk : k = k₂
    · subst hk
      by_cases hf : f k <;> simp [dget, hf, ih]
    · by_cases hf : f k₂ <;> simp [dget, hk, hf, ih]

theorem mem_of_dget {κ ν : Type} [DecidableEq κ] {k : κ} {v : ν} {m : List (κ × ν)}
    (h : dget k m = some v) : (k, v) ∈ m := by
  induction m with
  | nil => simp [dget] at h
  | cons hd tl ih =>
    obtain ⟨k₂, v₂⟩ := hd
    by_cases hk : k = k₂
    · subst hk
      simp [dget] at h
      simp [h]
    · simp [dget, hk] at h
      exact List.mem_cons_of_mem _ (ih h)

theorem dget_eq_none_of_not_mem {κ ν : Type} [DecidableEq κ] {k : κ} {m : List (κ × ν)}
    (h : k ∉ m.map Prod.fst) : dget k m = none := by
  induction m with
  | nil => rfl
  | cons hd tl ih =>
    obtain ⟨k₂, v₂⟩ := hd
    rw [List.map_cons] at h
    have h₁ : k ≠ k₂ := fun he => h (he ▸ List.mem_cons_self _ _)
    have h₂ : k ∉ tl.map Prod.fst := fun hm => h (List.mem_cons_of_mem _ hm)
    simp [dget, h₁, ih h₂]

theorem dget_ddel_self {κ ν : Type} [DecidableEq κ] (k : κ) (m : List (κ × ν))
    (h : (m.map Prod.fst).Nodup) : dget k (ddel k m) = none := by
  induction m with
  | nil => rfl
  | cons hd tl ih =>
    obtain ⟨k₂, v₂⟩ := hd
    rw [List.map_cons, List.nodup_cons] at h
    by_cases hk : k = k₂
    · subst hk
      simpa [ddel] using dget_eq_none_of_not_mem h.1
    · simp [ddel, dget, hk, ih h.2]

theorem dget_ddel_ne {κ ν : Type} [DecidableEq κ] {k k₂ : κ} (m : List (κ × ν))
    (h : k₂ ≠ k) : dget k₂ (ddel k m) = dget k₂ m := by
  induction m with
  | nil => rfl
  | cons hd tl ih =>
    obtain ⟨k₃, v₃⟩ := hd
    by_cases hk : k = k₃
    · subst hk
      simp [ddel, dget, h]
    · by_cases h₃ : k₂ = k₃ <;> simp [ddel, dget, hk, h₃, ih]

theorem strLtChars_irrefl (l : List Char) : strLtChars l l = false := by
  induction l with
  | nil => rfl
  | cons c rest ih => simp [strLtChars, ih]

theorem strLtChars_asymm : ∀ (a b : List Char), strLtChars a b = true → strLtChars b a = false
  | _, [], h => by simp [strLtChars] at h
  | [], _ :: _, _ => rfl
  | a :: as, b :: bs, h => by
    simp only [strLtChars] at h ⊢
    rcases lt_trichotomy a b with hab | hab | hab
    · simp [hab, not_lt_of_lt hab]
    · subst hab
      simp only [lt_irrefl, if_false] at h ⊢
      exact strLtChars_asymm as bs h
    · simp [hab, not_lt_of_lt hab] at h

theorem pyStrLt_asymm {a b : String} (h : pyStrLt a b = true) : pyStrLt b a = false :=
  strLtChars_asymm a.data b.data h

theorem pyStrLt_irrefl (a : String) : pyStrLt a a = false := strLtChars_irrefl a.data

theorem handlePush_of_mem {ι : Type} [DecidableEq ι] (pub : String) (prim : String → Option String)
    {ev : NEvent ι} {s : GwState ι} (h : ev.id ∈ s.seen) : handlePush pub prim ev s = s := by
  simp [handlePush, h]

theorem handlePush_seen {ι : Type} [DecidableEq ι] (pub : String) (prim : String → Option String)
    {ev : NEvent ι} {s : GwState ι} (h : ev.id ∉ s.seen) :
    (handlePush pub prim ev s).seen = s.seen ++ [ev.id] := by
  unfold handlePush
  rw [if_neg h]
  split
  · rfl
  · split <;> rfl

theorem handlePush_fresh {ι : Type} [DecidableEq ι] {pub : String} {prim : String → Option String}
    {ev : NEvent ι} {s : GwState ι} {pt : String}
    (h : ev.id ∉ s.seen) (ha : ev.author = pub) (hd : prim ev.content = some pt) :
    handlePush pub prim ev s = ⟨s.seen ++ [ev.id], s.forwarded ++ [(ev.id, pt)]⟩ := by
  simp [handlePush, h, ha, hd]

theorem pollStep_of_mem {ι : Type} [DecidableEq ι] (prim : String → Option String)
    {ev : NEvent ι} {s : GwState ι} (h : ev.id ∈ s.seen) : pollStep prim s ev = s := by
  simp [pollStep, h]

theorem pollStep_fresh {ι : Type} [DecidableEq ι] {prim : String → Option String}
    {ev : NEvent ι} {s : GwState ι} {pt : String}
    (h : ev.id ∉ s.seen) (hd : prim ev.content = some pt) :
    pollStep prim s ev = ⟨s.seen ++ [ev.id], s.forwarded ++ [(ev.id, pt)]⟩ := by
  simp [pollStep, h, hd]

theorem pruneSeen_length_le {ι : Type} (l : List ι) : (pruneSeen l).length ≤ maxSeen := by
  unfold pruneSeen
  split
  · rename_i h
    rw [List.length_drop]
    simp [maxSeen] at h ⊢
    omega
  · rename_i h
    omega

theorem mem_pruneSeen_append {ι : Type} (l : List ι) (x : ι) : x ∈ pruneSeen (l ++ [x]) := by
  unfold pruneSeen
  split
  · rename_i h
    have hle : (l ++ [x]).length - maxSeen / 2 ≤ l.length := by
      simp only [List.length_append, List.length_singleton, maxSeen]
      omega
    rw [List.drop_append_of_le_length hle]
    exact List.mem_append_right _ (by simp)
  · exact List.mem_append_right _ (by simp)

theorem foldl_handlePush_seen {ι : Type} [DecidableEq ι] (pub : String)
    (prim : String → Option String) :
    ∀ (evs : List (NEvent ι)) (s : GwState ι),
      (evs.map NEvent.id).Nodup → (∀ e ∈ evs, e.id ∉ s.seen) →
      ((evs.foldl (fun a e => handlePush pub prim e a) s)).seen = s.seen ++ evs.map NEvent.id
  | [], s, _, _ => by simp
  | e :: tl, s, hnd, hdis => by
    rw [List.map_cons, List.nodup_cons] at hnd
    have hfresh : e.id ∉ s.seen := hdis e (List.mem_cons_self _ _)
    have hseen : (handlePush pub prim e s).seen = s.seen ++ [e.id] :=
      handlePush_seen pub prim hfresh
    have htl : ∀ e₂ ∈ tl, e₂.id ∉ (handlePush pub prim e s).seen := by
      intro e₂ he₂
      rw [hseen]
      intro hmem
      rcases List.mem_append.mp hmem with hl | hr
      · exact hdis e₂ (List.mem_cons_of_mem _ he₂) hl
      · have : e₂.id = e.id := by simpa using hr
        exact hnd.1 (this ▸ List.mem_map_of_mem NEvent.id he₂)
    calc ((tl.foldl (fun a e₂ => handlePush pub prim e₂ a) (handlePush pub prim e s))).seen
        = (handlePush pub prim e s).seen ++ tl.map NEvent.id :=
          foldl_handlePush_seen pub prim tl _ hnd.2 htl
      _ = s.seen ++ (e :: tl).map NEvent.id := by rw [hseen]; simp

theorem updateTodaysMeal_plans (pfx : String) (today : Int) (st : MealState) :
    (updateTodaysMeal pfx today st).plans = st.plans := by
  cases h : dget today st.plans <;> simp [updateTodaysMeal, h]

theorem updateTodaysMeal_lastToday (pfx : String) (today : Int) (st : MealState) :
    (updateTodaysMeal pfx today st).lastToday = some today := by
  cases h : dget today st.plans <;> simp [updateTodaysMeal, h]

theorem updateTodaysMeal_emitted_length (pfx : String) (today : Int) (st : MealState) :
    (updateTodaysMeal pfx today st).emitted.length = st.emitted.length + 1 := by
  cases h : dget today st.plans <;> simp [updateTodaysMeal, h]

theorem updateTodaysMeal_absent (pfx : String) (today : Int) (st : MealState)
    (h : dget today st.plans = none) :
    (updateTodaysMeal pfx today st).emitted =
      st.emitted ++ [⟨mealEntity pfx, "No meal planned"⟩] := by
  simp [updateTodaysMeal, h]

theorem isTodayOrFuture_true {today k : Int} (h : today ≤ k ∧ k ≤ today + cacheFutureDays) :
    isTodayOrFuture today k = true := by
  unfold isTodayOrFuture
  exact decide_eq_true h

theorem handlePlan_store (pfx : String) (today k : Int) (data : PlanData) (dtag : String)
    (st : MealState) (hdel : data.deleted = false) (hdate : data.date = some k)
    (hwin : today ≤ k ∧ k ≤ today + cacheFutureDays)
    (hstale : staleCheck (dget k st.plans) data = false) :
    handlePlan pfx today data dtag st =
      updateTodaysMeal pfx today
        { st with plans := pruneOldPlans today (dset k data st.plans) } := by
  simp [handlePlan, hdel, hdate, isTodayOrFuture_true hwin, hstale]

theorem handlePlan_stores (pfx : String) (today k : Int) (data : PlanData) (dtag : String)
    (st : MealState) (hdel : data.deleted = false) (hdate : data.date = some k)
    (hwin : today ≤ k ∧ k ≤ today + cacheFutureDays)
    (hstale : staleCheck (dget k st.plans) data = false) :
    dget k (handlePlan pfx today data dtag st).plans = some data := by
  rw [handlePlan_store pfx today k data dtag st hdel hdate hwin hstale,
    updateTodaysMeal_plans]
  unfold pruneOldPlans
  rw [dget_filterKeys, if_pos (isTodayOrFuture_true hwin)]
  exact dget_dset_self k data st.plans

theorem handlePlan_drop_stale (pfx : String) (today k : Int) (data : PlanData) (dtag : String)
    (st : MealState) (hdel : data.deleted = false) (hdate : data.date = some k)
    (hstale : staleCheck (dget k st.plans) data = true) :
    handlePlan pfx today data dtag st = st := by
  by_cases hw : isTodayOrFuture today k <;> simp [handlePlan, hdel, hdate, hw, hstale]

theorem handlePlan_drop_window (pfx : String) (today k : Int) (data : PlanData) (dtag : String)
    (st : MealState) (hdel : data.deleted = false) (hdate : data.date = some k)
    (hwin : ¬(today ≤ k ∧ k ≤ today + cacheFutureDays)) :
    handlePlan pfx today data dtag st = st := by
  have hw : isTodayOrFuture today k = false := by
    unfold isTodayOrFuture
    exact decide_eq_false hwin
  simp [handlePlan, hdel, hdate, hw]


theorem chunksSource_of_envChunks {w : JVal} {chunks : List String}
    (h : envChunks w = some chunks) : chunksSource w = .chunks chunks := by
  cases w with
  | jobj ms =>
    cases hlk : lookupLast "_chunks" ms with
    | none => simp [envChunks, hlk] at h
    | some v =>
      cases v with
      | jarr xs =>
        simp only [envChunks, hlk] at h
        simp [chunksSource, hlk, h]
      | jstr s => simp [envChunks, hlk] at h
      | jnum => simp [envChunks, hlk] at h
      | jbool b => simp [envChunks, hlk] at h
      | jnull => simp [envChunks, hlk] at h
      | jobj ms₂ => simp [envChunks, hlk] at h
  | jstr s => simp [envChunks] at h
  | jnum => simp [envChunks] at h
  | jbool b => simp [envChunks] at h
  | jnull => simp [envChunks] at h
  | jarr xs => simp [envChunks] at h

/-!
Claim theorems.  Each claim of the specification is settled by exactly
one theorem below, with a witness instantiation when the theorem carries
hypotheses and a counterexample where the claim as stated fails on the
code.
-/


/-- C1: at-most-once forwarding.  For an event whose identifier is not yet in
the seen-set, whose author is the configured publisher and whose content
decrypts, delivering it through the push path and then the poll path — or the
poll path and then the push path — forwards the decrypted payload to the
router callback exactly once: the forward log grows by exactly the one entry,
the second delivery being dropped by the seen-set check before any further
processing. -/
theorem atMostOnce {ι : Type} [DecidableEq ι] (pub : String) (prim : String → Option String)
    (ev : NEvent ι) (s : GwState ι) (pt : String)
    (hseen : ev.id ∉ s.seen) (hauth : ev.author = pub) (hdec : prim ev.content = some pt) :
    (fetchLatest prim [ev] (handlePush pub prim ev s)).forwarded =
      s.forwarded ++ [(ev.id, pt)] ∧
    (handlePush pub prim ev (fetchLatest prim [ev] s)).forwarded =
      s.forwarded ++ [(ev.id, pt)] := by
  constructor
  · rw [handlePush_fresh hseen hauth hdec]
    unfold fetchLatest
    rw [List.foldl_cons, List.foldl_nil,
      pollStep_of_mem prim (s := ⟨s.seen ++ [ev.id], s.forwarded ++ [(ev.id, pt)]⟩)
        (List.mem_append_right _ (by simp))]
  · have hpoll : fetchLatest prim [ev] s =
        ⟨pruneSeen (s.seen ++ [ev.id]), s.forwarded ++ [(ev.id, pt)]⟩ := by
      unfold fetchLatest
      rw [List.foldl_cons, List.foldl_nil, pollStep_fresh hseen hdec]
    rw [hpoll, handlePush_of_mem pub prim (mem_pruneSeen_append s.seen ev.id)]

/-- Witness for C1: a single concrete event delivered push-then-poll and
poll-then-push from the empty state is forwarded exactly once each way. -/
theorem atMostOnce_witness :
    ((1 : Nat) ∉ (⟨[], []⟩ : GwState Nat).seen) ∧
    ((⟨1, "p", "c"⟩ : NEvent Nat).author = "p") ∧
    ((fun _ : String => some "pt") "c" = some "pt") ∧
    ((fetchLatest (fun _ => some "pt") [⟨1, "p", "c"⟩]
        (handlePush "p" (fun _ => some "pt") (⟨1, "p", "c"⟩ : NEvent Nat) ⟨[], []⟩)).forwarded
        = [] ++ [((1 : Nat), "pt")] ∧
      (handlePush "p" (fun _ => some "pt") (⟨1, "p", "c"⟩ : NEvent Nat)
        (fetchLatest (fun _ => some "pt") [⟨1, "p", "c"⟩] ⟨[], []⟩)).forwarded
        = [] ++ [((1 : Nat), "pt")]) :=
  ⟨by decide, rfl, rfl,
   atMostOnce "p" (fun _ => some "pt") ⟨1, "p", "c"⟩ ⟨[], []⟩ "pt" (by decide) rfl rfl⟩

/-- C4 (amended): every completed poll fetch ends by pruning, so afterwards
the seen-set holds at most the cap of 10,000 entries — for any batch and any
starting state; the push path on its own never prunes (see the
counterexample), so the bound is restored only at poll-fetch boundaries. -/
theorem ledgerBound {ι : Type} [DecidableEq ι] (prim : String → Option String)
    (evs : List (NEvent ι)) (s : GwState ι) :
    ((fetchLatest prim evs s).seen).length ≤ maxSeen := by
  unfold fetchLatest
  exact pruneSeen_length_le _

/-- Counterexample to C4 as stated: 10,001 push deliveries with distinct
identifiers and no intervening poll fetch leave 10,001 entries in the
seen-set, exceeding the cap — NostrEventHandler.handle never prunes. -/
theorem ledgerBound_cex :
    ((((List.range (maxSeen + 1)).map (fun i => (⟨i, "p", "c"⟩ : NEvent Nat))).foldl
        (fun a e => handlePush "p" (fun _ => none) e a) ⟨[], []⟩).seen).length
      = maxSeen + 1 ∧ maxSeen < maxSeen + 1 := by
  constructor
  · have hcomp : (NEvent.id ∘ fun i => (⟨i, "p", "c"⟩ : NEvent Nat)) = fun i => i := rfl
    have hmap : ((List.range (maxSeen + 1)).map
        (fun i => (⟨i, "p", "c"⟩ : NEvent Nat))).map NEvent.id = List.range (maxSeen + 1) := by
      rw [List.map_map, hcomp, List.map_id']
    have h := foldl_handlePush_seen "p" (fun _ => none)
      ((List.range (maxSeen + 1)).map (fun i => (⟨i, "p", "c"⟩ : NEvent Nat)))
      ⟨[], []⟩ (by rw [hmap]; exact List.nodup_range _) (by intro e he; simp)
    rw [hmap] at h
    rw [h]
    simp
  · omega

/-- C5: prune semantics.  When the seen-set exceeds the cap, one prune leaves
exactly cap/2 entries, and what was evicted is precisely the oldest prefix in
insertion order (the retained entries are the most-recently-inserted cap/2,
the suffix); at or below the cap, prune removes nothing. -/
theorem pruneEviction {ι : Type} (l : List ι) :
    (maxSeen < l.length →
      (pruneSeen l).length = maxSeen / 2 ∧
      l.take (l.length - maxSeen / 2) ++ pruneSeen l = l) ∧
    (l.length ≤ maxSeen → pruneSeen l = l) := by
  constructor
  · intro h
    unfold pruneSeen
    rw [if_pos h]
    constructor
    · rw [List.length_drop]
      simp only [maxSeen] at h ⊢
      omega
    · exact List.take_append_drop _ l
  · intro h
    unfold pruneSeen
    rw [if_neg (by omega)]

/-- Witness for C5: a seen-set of 10,001 entries is pruned to exactly 5,000,
the retained suffix, and one of 3 entries is left untouched. -/
theorem pruneEviction_witness :
    maxSeen < (List.range (maxSeen + 1)).length ∧
    ((pruneSeen (List.range (maxSeen + 1))).length = maxSeen / 2 ∧
      (List.range (maxSeen + 1)).take ((List.range (maxSeen + 1)).length - maxSeen / 2) ++
        pruneSeen (List.range (maxSeen + 1)) = List.range (maxSeen + 1)) ∧
    ((List.range 3).length ≤ maxSeen ∧ pruneSeen (List.range 3) = List.range 3) :=
  ⟨by simp [maxSeen],
   (pruneEviction (List.range (maxSeen + 1))).1 (by simp [maxSeen]),
   by simp [maxSeen], (pruneEviction (List.range 3)).2 (by simp [maxSeen])⟩

/-- C2: last-writer-wins resolution.  For two non-deletion plan records for the
same in-window date key, both with non-empty updatedAt timestamps: when
A.updatedAt < B.updatedAt, applying handle_plan_event with A and B in either
order leaves B as the stored record for the key; when the timestamps are equal,
the later-applied record is the one stored. -/
theorem lwwResolution (pfx : String) (today k : Int) (a b : PlanData) (dtagA dtagB : String)
    (st : MealState)
    (hA : a.deleted = false) (hB : b.deleted = false)
    (hdA : a.date = some k) (hdB : b.date = some k)
    (hwin : today ≤ k ∧ k ≤ today + cacheFutureDays)
    (hta : a.updatedAt ≠ "") (htb : b.updatedAt ≠ "")
    (hst : dget k st.plans = none) :
    (pyStrLt a.updatedAt b.updatedAt = true →
      dget k (handlePlan pfx today b dtagB (handlePlan pfx today a dtagA st)).plans = some b ∧
      dget k (handlePlan pfx today a dtagA (handlePlan pfx today b dtagB st)).plans = some b) ∧
    (a.updatedAt = b.updatedAt →
      dget k (handlePlan pfx today b dtagB (handlePlan pfx today a dtagA st)).plans = some b ∧
      dget k (handlePlan pfx today a dtagA (handlePlan pfx today b dtagB st)).plans = some a) := by
  have hstale₀ : ∀ d : PlanData, staleCheck (dget k st.plans) d = false := by
    intro d
    rw [hst]
    rfl
  have hstoreA : dget k (handlePlan pfx today a dtagA st).plans = some a :=
    handlePlan_stores pfx today k a dtagA st hA hdA hwin (hstale₀ a)
  have hstoreB : dget k (handlePlan pfx today b dtagB st).plans = some b :=
    handlePlan_stores pfx today k b dtagB st hB hdB hwin (hstale₀ b)
  constructor
  · intro hlt
    constructor
    · exact handlePlan_stores pfx today k b dtagB _ hB hdB hwin
        (by rw [hstoreA]; simp [staleCheck, pyStrLt_asymm hlt])
    · rw [handlePlan_drop_stale pfx today k a dtagA _ hA hdA
        (by rw [hstoreB]; simp [staleCheck, bne_iff_ne, hta, htb, hlt])]
      exact hstoreB
  · intro heq
    constructor
    · exact handlePlan_stores pfx today k b dtagB _ hB hdB hwin
        (by rw [hstoreA]; simp [staleCheck, heq, pyStrLt_irrefl])
    · exact handlePlan_stores pfx today k a dtagA _ hA hdA hwin
        (by rw [hstoreB]; simp [staleCheck, heq, pyStrLt_irrefl])

/-- Witness for C2 at concrete records: with timestamps "a1" < "a2", either
application order stores the "a2" record under the shared key. -/
theorem lwwResolution_witness :
    pyStrLt "a1" "a2" = true ∧
    (dget 0 (handlePlan "n" 0 ⟨false, some 0, "a2", "", some "Soup"⟩ "d"
        (handlePlan "n" 0 ⟨false, some 0, "a1", "", some "Salad"⟩ "d" ⟨[], none, []⟩)).plans
      = some ⟨false, some 0, "a2", "", some "Soup"⟩ ∧
     dget 0 (handlePlan "n" 0 ⟨false, some 0, "a1", "", some "Salad"⟩ "d"
        (handlePlan "n" 0 ⟨false, some 0, "a2", "", some "Soup"⟩ "d" ⟨[], none, []⟩)).plans
      = some ⟨false, some 0, "a2", "", some "Soup"⟩) :=
  ⟨by decide,
   (lwwResolution "n" 0 0 ⟨false, some 0, "a1", "", some "Salad"⟩
      ⟨false, some 0, "a2", "", some "Soup"⟩ "d" "d" ⟨[], none, []⟩
      rfl rfl rfl rfl (by decide) (by decide) (by decide) rfl).1 (by decide)⟩

/-- C3 (amended): a non-deletion record that passes the stale-write check is
stored iff its key lies in [today, today + 30]; outside that window the event
is dropped silently (the state is unchanged, so no error and no emission); and
after a storing upsert every cached key lies inside the window (stale keys are
pruned on the mutation). -/
theorem retentionWindow (pfx : String) (today k : Int) (data : PlanData) (dtag : String)
    (st : MealState) (hdel : data.deleted = false) (hdate : data.date = some k)
    (hst : dget k st.plans = none) :
    (dget k (handlePlan pfx today data dtag st).plans = some data ↔
      today ≤ k ∧ k ≤ today + cacheFutureDays) ∧
    (¬(today ≤ k ∧ k ≤ today + cacheFutureDays) → handlePlan pfx today data dtag st = st) ∧
    ((today ≤ k ∧ k ≤ today + cacheFutureDays) →
      ∀ kp ∈ (handlePlan pfx today data dtag st).plans,
        today ≤ kp.1 ∧ kp.1 ≤ today + cacheFutureDays) := by
  have hdrop : ¬(today ≤ k ∧ k ≤ today + cacheFutureDays) →
      handlePlan pfx today data dtag st = st :=
    handlePlan_drop_window pfx today k data dtag st hdel hdate
  refine ⟨⟨fun hs => ?_, fun hwin => ?_⟩, hdrop, fun hwin kp hkp => ?_⟩
  · by_contra hwin
    rw [hdrop hwin, hst] at hs
    exact Option.noConfusion hs
  · exact handlePlan_stores pfx today k data dtag st hdel hdate hwin (by rw [hst]; rfl)
  · rw [handlePlan_store pfx today k data dtag st hdel hdate hwin (by rw [hst]; rfl),
      updateTodaysMeal_plans] at hkp
    have := List.of_mem_filter hkp
    exact of_decide_eq_true this

/-- Witness for C3 at a concrete in-window key: the stored-iff-in-window
equivalence for key 5 with today = 0. -/
theorem retentionWindow_witness :
    ((⟨false, some 5, "t", "", some "Soup"⟩ : PlanData).deleted = false) ∧
    (dget 5 (handlePlan "n" 0 ⟨false, some 5, "t", "", some "Soup"⟩ "d" ⟨[], none, []⟩).plans
        = some ⟨false, some 5, "t", "", some "Soup"⟩ ↔
      (0 : Int) ≤ 5 ∧ (5 : Int) ≤ 0 + cacheFutureDays) :=
  ⟨rfl, (retentionWindow "n" 0 5 ⟨false, some 5, "t", "", some "Soup"⟩ "d" ⟨[], none, []⟩
    rfl rfl rfl).1⟩

/-- Counterexample to C3 as stated: with today = 100, the key 70 lies inside
the claimed window [today - 30, today + 30], yet handle_plan_event drops the
record (the code keeps only [today, today + 30]). -/
theorem retentionWindow_cex :
    ((100 : Int) - 30 ≤ 70 ∧ (70 : Int) ≤ 100 + 30) ∧
    dget 70 (handlePlan "n" 100 ⟨false, some 70, "t", "", some "Soup"⟩ "d"
      ⟨[], none, []⟩).plans = none := by
  refine ⟨by decide, by decide⟩

/-- C10: the stale-write rejection applies only when both timestamps are
non-empty; if either the incoming or the existing updatedAt is missing or
empty, the incoming record replaces the stored one unconditionally. -/
theorem missingTimestamp (pfx : String) (today k : Int) (data ex : PlanData) (dtag : String)
    (st : MealState) (hdel : data.deleted = false) (hdate : data.date = some k)
    (hwin : today ≤ k ∧ k ≤ today + cacheFutureDays)
    (hex : dget k st.plans = some ex)
    (hts : data.updatedAt = "" ∨ ex.updatedAt = "") :
    dget k (handlePlan pfx today data dtag st).plans = some data := by
  apply handlePlan_stores pfx today k data dtag st hdel hdate hwin
  rw [hex]
  rcases hts with h | h <;> simp [staleCheck, h]

/-- Witness for C10: an incoming record with empty updatedAt replaces an
existing record carrying a (much newer) timestamp. -/
theorem missingTimestamp_witness :
    dget 0 ((⟨[(0, ⟨false, some 0, "9999", "", some "Old"⟩)], none, []⟩ : MealState)).plans
      = some ⟨false, some 0, "9999", "", some "Old"⟩ ∧
    dget 0 (handlePlan "n" 0 ⟨false, some 0, "", "", some "New"⟩ "d"
        ⟨[(0, ⟨false, some 0, "9999", "", some "Old"⟩)], none, []⟩).plans
      = some ⟨false, some 0, "", "", some "New"⟩ :=
  ⟨by decide,
   missingTimestamp "n" 0 0 ⟨false, some 0, "", "", some "New"⟩
     ⟨false, some 0, "9999", "", some "Old"⟩ "d"
     ⟨[(0, ⟨false, some 0, "9999", "", some "Old"⟩)], none, []⟩
     rfl rfl (by decide) (by decide) (Or.inl rfl)⟩

/-- C6: a deletion-marker event whose d-tag resolves to a cached record
removes that record's date key from the cache, leaves the record of every
other key unchanged, and triggers exactly one re-derivation of the current
view; when the deleted key is the current date, that derivation publishes
the absent state "No meal planned". -/
theorem deletionSemantics (pfx : String) (today k : Int) (data : PlanData) (dtag : String)
    (st : MealState) (rec : PlanData)
    (hdel : data.deleted = true)
    (hnd : (st.plans.map Prod.fst).Nodup)
    (hcol : dtag.data.contains ':' = true)
    (hpid : lastSeg dtag ≠ "")
    (hmem : dget k st.plans = some rec)
    (hid : rec.planId = lastSeg dtag)
    (huniq : ∀ kp ∈ st.plans, kp.2.planId = lastSeg dtag → kp.1 = k) :
    dget k (handlePlan pfx today data dtag st).plans = none ∧
    (∀ k₂, k₂ ≠ k → dget k₂ (handlePlan pfx today data dtag st).plans = dget k₂ st.plans) ∧
    (handlePlan pfx today data dtag st).emitted.length = st.emitted.length + 1 ∧
    (k = today →
      (handlePlan pfx today data dtag st).emitted =
        st.emitted ++ [⟨mealEntity pfx, "No meal planned"⟩]) := by
  have hfound : ∃ e, st.plans.find? (fun kp => kp.2.planId == lastSeg dtag) = some e := by
    rw [← Option.isSome_iff_exists, List.find?_isSome]
    exact ⟨(k, rec), mem_of_dget hmem, by simp [hid]⟩
  obtain ⟨e, he⟩ := hfound
  have hek : e.1 = k :=
    huniq e (List.mem_of_find?_eq_some he) (by simpa using List.find?_some he)
  have hfind : findDateByDtag dtag st.plans = some k := by
    unfold findDateByDtag
    rw [hcol]
    simp only [Bool.true_eq_false, if_false, hpid, ite_false]
    rw [he]
    simp [hek]
  have hplan : handlePlan pfx today data dtag st =
      updateTodaysMeal pfx today { st with plans := ddel k st.plans } := by
    simp [handlePlan, hdel, hfind]
  rw [hplan]
  refine ⟨?_, ?_, ?_, ?_⟩
  · rw [updateTodaysMeal_plans]
    exact dget_ddel_self k st.plans hnd
  · intro k₂ hk₂
    rw [updateTodaysMeal_plans]
    exact dget_ddel_ne st.plans hk₂
  · exact updateTodaysMeal_emitted_length pfx today _
  · intro hk
    subst hk
    exact updateTodaysMeal_absent pfx k _ (dget_ddel_self k st.plans hnd)

/-- Witness for C6: deleting the only cached plan (id "abc", key 100 = today)
via d-tag "mmp:plan:abc" empties the cache and publishes "No meal planned". -/
theorem deletionSemantics_witness :
    ((⟨true, none, "", "", none⟩ : PlanData).deleted = true) ∧
    ("mmp:plan:abc".data.contains ':' = true) ∧
    dget 100 (handlePlan "nostr" 100 ⟨true, none, "", "", none⟩ "mmp:plan:abc"
      ⟨[(100, ⟨false, some 100, "t", "abc", some "Soup"⟩)], some 100, []⟩).plans = none ∧
    (handlePlan "nostr" 100 ⟨true, none, "", "", none⟩ "mmp:plan:abc"
      ⟨[(100, ⟨false, some 100, "t", "abc", some "Soup"⟩)], some 100, []⟩).emitted =
      [] ++ [⟨mealEntity "nostr", "No meal planned"⟩] :=
  ⟨rfl, by decide,
   (deletionSemantics "nostr" 100 100 ⟨true, none, "", "", none⟩ "mmp:plan:abc"
      ⟨[(100, ⟨false, some 100, "t", "abc", some "Soup"⟩)], some 100, []⟩
      ⟨false, some 100, "t", "abc", some "Soup"⟩
      rfl (by decide) (by decide) (by decide) (by decide) (by decide) (by decide)).1,
   (deletionSemantics "nostr" 100 100 ⟨true, none, "", "", none⟩ "mmp:plan:abc"
      ⟨[(100, ⟨false, some 100, "t", "abc", some "Soup"⟩)], some 100, []⟩
      ⟨false, some 100, "t", "abc", some "Soup"⟩
      rfl (by decide) (by decide) (by decide) (by decide) (by decide) (by decide)).2.2.2 rfl⟩


theorem refreshToday_noop (pfx : String) (today : Int) (st : MealState)
    (h : st.lastToday = some today) : refreshToday pfx today st = (st, false) := by
  unfold refreshToday
  rw [if_neg (by rw [h]; exact not_ne_iff.mpr rfl)]

/-- C7: refresh_today reports true exactly when the current date differs from
the last-observed one; in that case it records the new date and emits exactly
one derivation; otherwise it is a no-op returning false — so a second call
within the same date never derives again. -/
theorem rolloverTick (pfx : String) (today : Int) (st : MealState) :
    ((refreshToday pfx today st).2 = true ↔ st.lastToday ≠ some today) ∧
    (st.lastToday = some today → refreshToday pfx today st = (st, false)) ∧
    (st.lastToday ≠ some today →
      (refreshToday pfx today st).1.lastToday = some today ∧
      (refreshToday pfx today st).1.emitted.length = st.emitted.length + 1) ∧
    refreshToday pfx today (refreshToday pfx today st).1 =
      ((refreshToday pfx today st).1, false) := by
  by_cases h : st.lastToday = some today
  · have hno := refreshToday_noop pfx today st h
    refine ⟨?_, fun _ => hno, fun hne => absurd h hne, ?_⟩
    · rw [hno]
      simp [h]
    · rw [hno]
      exact hno
  · have hcond : some today ≠ st.lastToday := fun he => h he.symm
    have hrun : refreshToday pfx today st = (updateTodaysMeal pfx today st, true) := by
      unfold refreshToday
      rw [if_pos hcond]
    refine ⟨?_, fun he => absurd he h, fun _ => ?_, ?_⟩
    · rw [hrun]
      simp [h]
    · rw [hrun]
      exact ⟨updateTodaysMeal_lastToday pfx today st, updateTodaysMeal_emitted_length pfx today st⟩
    · apply refreshToday_noop
      rw [hrun]
      exact updateTodaysMeal_lastToday pfx today st

/-- Witness for C7: from the initial state (no date observed yet), a refresh
at date 5 records the date and derives once. -/
theorem rolloverTick_witness :
    ((⟨[], none, []⟩ : MealState).lastToday ≠ some 5) ∧
    ((refreshToday "n" 5 ⟨[], none, []⟩).1.lastToday = some 5 ∧
     (refreshToday "n" 5 ⟨[], none, []⟩).1.emitted.length = 0 + 1) :=
  ⟨by decide, (rolloverTick "n" 5 ⟨[], none, []⟩).2.2.1 (by decide)⟩

/-- C8: for every validated sensor payload the router issues exactly one
state-sink update, for entity "sensor.<prefix>_<entity_id>", with state equal
to str(value); and in the resulting attribute map the four derived keys
(unit_of_measurement, device_class, friendly_name, source) carry their derived
values, even when the caller-supplied attributes bind the same names — the
fixed assignments are applied after the spread and so take precedence. -/
theorem sensorDispatch (pfx : String) (p : SensorPayload) :
    (dispatchSensor pfx p).map SinkUpdate.entityId = ["sensor." ++ pfx ++ "_" ++ p.entityId] ∧
    (dispatchSensor pfx p).map SinkUpdate.state = [pyStrOf p.value] ∧
    ∀ u ∈ dispatchSensor pfx p,
      dget "unit_of_measurement" u.attrs = some (.pyStr p.unit) ∧
      dget "device_class" u.attrs = some (.pyStr p.deviceClass) ∧
      dget "friendly_name" u.attrs = some (.pyStr (friendlyName p.entityId)) ∧
      dget "source" u.attrs = some (.pyStr "nostr") := by
  refine ⟨rfl, rfl, ?_⟩
  intro u hu
  have hu₂ : u = (dispatchSensor pfx p).headD ⟨"", "", []⟩ := by
    simpa [dispatchSensor] using hu
  subst hu₂
  refine ⟨?_, ?_, ?_, ?_⟩
  · show dget "unit_of_measurement" (dset "source" _ (dset "friendly_name" _
      (dset "device_class" _ (dset "unit_of_measurement" _ p.attributes)))) = _
    rw [dget_dset_ne _ _ (by decide), dget_dset_ne _ _ (by decide),
      dget_dset_ne _ _ (by decide)]
    exact dget_dset_self _ _ _
  · show dget "device_class" (dset "source" _ (dset "friendly_name" _
      (dset "device_class" _ (dset "unit_of_measurement" _ p.attributes)))) = _
    rw [dget_dset_ne _ _ (by decide), dget_dset_ne _ _ (by decide)]
    exact dget_dset_self _ _ _
  · show dget "friendly_name" (dset "source" _ (dset "friendly_name" _
      (dset "device_class" _ (dset "unit_of_measurement" _ p.attributes)))) = _
    rw [dget_dset_ne _ _ (by decide)]
    exact dget_dset_self _ _ _
  · exact dget_dset_self _ _ _

/-- C9 (amended): decrypt applies chunked decryption — returning the
concatenation, in array order, of the independent decryptions of the
chunks — to every body that starts with the literal text of the compact
chunk envelope AND parses as a JSON object whose "_chunks" member is an
array of strings; and every body that does not start with that literal
prefix is decrypted in one shot, even when it is a JSON object of the
chunk-envelope shape (the counterexample exhibits such a body). -/
theorem chunkedDecrypt (prim : String → Option String) (content : String) :
    (∀ chunks parts, chunksMarker.isPrefixOf content.data = true →
      chunkEnvelope content = some chunks → decryptChunks prim chunks = some parts →
      decrypt prim content = some (String.join parts)) ∧
    (chunksMarker.isPrefixOf content.data = false → decrypt prim content = prim content) := by
  constructor
  · intro chunks parts hpfx henv hmap
    cases hpd : parseDoc content with
    | none => simp [chunkEnvelope, hpd] at henv
    | some w =>
      simp only [chunkEnvelope, hpd] at henv
      simp [decrypt, hpfx, hpd, chunksSource_of_envChunks henv, hmap]
  · intro h
    simp [decrypt, h]

/-- Witness for C9: a compact two-chunk envelope (one chunk spelled with
a \u escape) decrypts to the concatenation of the chunk plaintexts, and
a non-envelope body falls back to one-shot decryption. -/
theorem chunkedDecrypt_witness :
    (chunksMarker.isPrefixOf ("\x7b\"_chunks\":[\"a\",\"\\u0062\"]\x7d").data = true ∧
      chunkEnvelope "\x7b\"_chunks\":[\"a\",\"\\u0062\"]\x7d" = some ["a", "b"] ∧
      decryptChunks (fun s => some (s ++ "!")) ["a", "b"] = some ["a!", "b!"] ∧
      decrypt (fun s => some (s ++ "!")) "\x7b\"_chunks\":[\"a\",\"\\u0062\"]\x7d"
        = some (String.join ["a!", "b!"])) ∧
    (chunksMarker.isPrefixOf ("plain").data = false ∧
      decrypt (fun s => some (s ++ "!")) "plain" = (fun s : String => some (s ++ "!")) "plain") :=
  ⟨⟨by decide, by decide, by decide,
    (chunkedDecrypt (fun s => some (s ++ "!")) "\x7b\"_chunks\":[\"a\",\"\\u0062\"]\x7d").1
      ["a", "b"] ["a!", "b!"] (by decide) (by decide) (by decide)⟩,
   ⟨by decide,
    (chunkedDecrypt (fun s => some (s ++ "!")) "plain").2 (by decide)⟩⟩

/-- Counterexample to C9 as stated: the body below IS a JSON object of
the shape with a "_chunks" array (it parses to the chunk list ["x"], as
decryptPerSpec shows), but because of the leading space it fails the
literal prefix test, so decrypt performs single-shot decryption of the
whole body instead of returning the chunk concatenation "x!". -/
theorem chunkedDecrypt_cex :
    chunkEnvelope "\x7b \"_chunks\": [\"x\"]\x7d" = some ["x"] ∧
    decryptPerSpec (fun s => some (s ++ "!")) "\x7b \"_chunks\": [\"x\"]\x7d" = some "x!" ∧
    decrypt (fun s => some (s ++ "!")) "\x7b \"_chunks\": [\"x\"]\x7d"
      = some ("\x7b \"_chunks\": [\"x\"]\x7d" ++ "!") ∧
    decrypt (fun s => some (s ++ "!")) "\x7b \"_chunks\": [\"x\"]\x7d" ≠ some "x!" :=
  ⟨by decide, by decide, by decide, by decide⟩

end Bridge
